import Mathlib

/-!
# Verification of the VDA FIFO profit/loss calculator

A shallow embedding of the core of src/vda_calculator.py: the record
normalisation (column cleaning, buy/sell split, date-ascending sort), the
FIFO matching engine (the while-loop at lines 52-91 of the source), and the
aggregation into report rows (lines 98-131), together with proofs of the
specified properties.

Modelling conventions:
* Python floats are modelled by exact rationals.
* A pandas Timestamp is modelled by a day number plus a time-of-day
  component, compared lexicographically; a NaT (unparseable date) is
  modelled by the value none of Option Timestamp.  As in pandas, an order
  comparison against NaT is false, while sorting places NaT last.
* pandas sort_values is modelled by a deterministic stable sort
  (List.insertionSort); pandas leaves the relative order of equal keys
  unspecified (its default quicksort is not stable), so only properties
  that do not depend on the tie order of that library routine are proved
  against this model.
* pandas groupby drops rows whose grouping key contains NaT; the
  aggregation model does the same.
* pd.DataFrame of an empty row list has no columns, so the final
  sort_values call of the source raises KeyError exactly when the grouped
  row list is empty while the match list is not; the model returns
  Except.error there.
* Each match record additionally carries the matched quantity (the
  source's local variable matched_qty) and the position of the consumed
  buy lot in the sorted buy list; both are ghost data used only to state
  conservation properties, and the aggregation ignores them.
-/

/-- A calendar timestamp: day number and time-of-day, ordered
lexicographically.  Grouping discards the time-of-day component. -/
structure Timestamp where
  day : Int
  tod : Int
deriving DecidableEq

/-- Timestamp order (lexicographic), as a boolean. -/
def tsLeB (a b : Timestamp) : Bool :=
  decide (a.day < b.day) || (decide (a.day = b.day) && decide (a.tod ≤ b.tod))

/-- Sorting key order used by the sort of the buy/sell streams: as in
pandas sort_values, NaT (none) sorts after every real timestamp. -/
def optLeB : Option Timestamp → Option Timestamp → Bool
  | some a, some b => tsLeB a b
  | some _, none => true
  | none, none => true
  | none, some _ => false

/-- The eligibility comparison of source line 55
(buys.loc[buy_pointer, "Date"] <= sell_date): as in pandas, any order
comparison involving NaT is false. -/
def dleB : Option Timestamp → Option Timestamp → Bool
  | some a, some b => tsLeB a b
  | _, _ => false

/-- One normalised ledger row, after the numeric extraction of lines 26-28
and the date coercion of line 31 of the source: amount, total and price
are already numbers, the date is none when unparseable. -/
structure Row where
  date : Option Timestamp
  typ : String
  amount : ℚ
  total : ℚ
  price : ℚ
deriving DecidableEq

/-- The lot state carried across sell iterations (source lines 40-43):
remaining_buy_amount, remaining_buy_cost, current_buy_date; idx is ghost
data recording which sorted buy the lot came from. -/
structure Lot where
  rba : ℚ
  rbc : ℚ
  acq : Option Timestamp
  idx : Option Nat
deriving DecidableEq

/-- One emitted match (the dict appended at source lines 81-87).  qty and
lotIdx are ghost fields (the source's matched_qty local and the lot's
position); the aggregation ignores them. -/
structure MatchRec where
  acq : Option Timestamp
  disp : Option Timestamp
  cost : ℚ
  cons : ℚ
  pl : ℚ
  qty : ℚ
  lotIdx : Option Nat
deriving DecidableEq

/-- One unmatched sell (the dict appended at source lines 65-69). -/
structure UnmatchedSell where
  disp : Option Timestamp
  remQty : ℚ
  price : ℚ
deriving DecidableEq

/-- Result of processing one sell: emitted matches, emitted unmatched
record, and the lot / buy-cursor state carried to the next sell. -/
structure SellOut where
  recs : List MatchRec
  unms : List UnmatchedSell
  lot : Lot
  buys : List (Nat × Row)
deriving DecidableEq

/-- Source lines 76-91: compute matched_qty, cost, consideration and
profit_loss, emit the match record, and update the lot and the remaining
sell quantity.  In the source the cost formula carries an inline guard
against a zero denominator (line 77); rational division by zero is zero,
matched here by the same explicit guard. -/
def stepMatch (sd : Option Timestamp) (sp : ℚ) (q : ℚ) (lot : Lot) :
    MatchRec × ℚ × Lot :=
  let m := min q lot.rba
  let cost := if lot.rba ≠ 0 then lot.rbc * (m / lot.rba) else 0
  let cons := sp * m
  (⟨lot.acq, sd, cost, cons, cons - cost, m, lot.idx⟩,
   q - m,
   ⟨lot.rba - m, lot.rbc - cost, lot.acq, lot.idx⟩)

/-- The inner while-loop of one sell (source lines 52-91), starting at the
cursor-advance step: scan the remaining buys while their date is on or
before the sell date, adopting each scanned buy as the current lot and
stopping at the first one with positive amount (lines 55-62); if the scan
ends without such a buy, emit an unmatched record and stop (the for-else,
lines 63-70); otherwise match against the adopted lot (lines 76-91) and
continue while sell quantity remains.

After a match that leaves positive sell quantity the lot is exactly
exhausted (matched_qty = min makes the remainder zero in exact
arithmetic), so the loop re-enters the cursor-advance step; this lets the
loop recurse structurally on the buy suffix.  The defensive break at
source line 72 is unreachable: the scan only stops on a positive lot. -/
def adoptAndGo (sd : Option Timestamp) (sp : ℚ) :
    List (Nat × Row) → ℚ → Lot → SellOut
  | [], q, lot => ⟨[], [⟨sd, q, sp⟩], lot, []⟩
  | (i, b) :: rest, q, lot =>
    if dleB b.date sd then
      let lot1 : Lot := ⟨b.amount, b.total, b.date, some i⟩
      if 0 < b.amount then
        let s := stepMatch sd sp q lot1
        if 0 < s.2.1 then
          let r := adoptAndGo sd sp rest s.2.1 s.2.2
          { r with recs := s.1 :: r.recs }
        else ⟨[s.1], [], s.2.2, rest⟩
      else adoptAndGo sd sp rest q lot1
    else ⟨[], [⟨sd, q, sp⟩], lot, (i, b) :: rest⟩

/-- Process one sell (the body of the for-loop at source lines 46-91).
If the sell quantity is not positive the while-loop never runs.  If the
carried lot is exhausted the cursor advances first; otherwise the carried
lot is matched, and the loop continues into the cursor advance when sell
quantity remains (the lot being exactly exhausted then). -/
def processSell (sd : Option Timestamp) (sp : ℚ) (q : ℚ) (lot : Lot)
    (buys : List (Nat × Row)) : SellOut :=
  if 0 < q then
    if lot.rba = 0 then adoptAndGo sd sp buys q lot
    else
      let s := stepMatch sd sp q lot
      if 0 < s.2.1 then
        let r := adoptAndGo sd sp buys s.2.1 s.2.2
        { r with recs := s.1 :: r.recs }
      else ⟨[s.1], [], s.2.2, buys⟩
  else ⟨[], [], lot, buys⟩

/-- The engine state across the sell loop: remaining buys (the cursor is
represented by the consumed prefix), the carried lot, and the accumulated
matches and unmatched sells. -/
structure EngSt where
  buys : List (Nat × Row)
  lot : Lot
  recs : List MatchRec
  unms : List UnmatchedSell
deriving DecidableEq

/-- Fold one sell row into the engine state. -/
def sellStep (st : EngSt) (s : Row) : EngSt :=
  let r := processSell s.date s.price s.amount st.lot st.buys
  ⟨r.buys, r.lot, st.recs ++ r.recs, st.unms ++ r.unms⟩

/-- The for-loop over sells (source line 46). -/
def processSells : List Row → EngSt → EngSt
  | [], st => st
  | s :: rest, st => processSells rest (sellStep st s)

/-- ASCII lower-casing of one character, the relevant fragment of the
pandas str.lower of source lines 34-35. -/
def lcChar (c : Char) : Char :=
  if 65 ≤ c.toNat ∧ c.toNat ≤ 90 then Char.ofNat (c.toNat + 32) else c

/-- Whitespace test of the pandas str.strip of source lines 34-35. -/
def wsChar (c : Char) : Bool :=
  c.toNat = 32 || c.toNat = 9 || c.toNat = 10 ||
  c.toNat = 13 || c.toNat = 11 || c.toNat = 12

/-- The Type normalisation of source lines 34-35: lower-case the value,
then strip surrounding whitespace. -/
def strClean (s : String) : List Char :=
  (((s.data.map lcChar).dropWhile wsChar).reverse.dropWhile wsChar).reverse

/-- Source line 34: Type classified as buy by lowercasing then stripping. -/
def isBuy (r : Row) : Bool := strClean r.typ == "buy".data

/-- Source line 35: Type classified as sell by lowercasing then stripping. -/
def isSell (r : Row) : Bool := strClean r.typ == "sell".data

/-- The date order on rows used by the buy/sell sort. -/
def rowDateLe (a b : Row) : Prop := optLeB a.date b.date = true

instance : DecidableRel rowDateLe := fun a b => by
  unfold rowDateLe; infer_instance

/-- Source lines 34-35: sort a stream by date ascending, NaT last.  The
source calls pandas sort_values (default quicksort, tie order
unspecified); the model fixes a deterministic stable sort. -/
def sortByDate (rs : List Row) : List Row := rs.insertionSort rowDateLe

/-- The sorted buy stream of a ledger (source line 34). -/
def sortedBuys (rows : List Row) : List Row := sortByDate (rows.filter isBuy)

/-- The sorted sell stream of a ledger (source line 35). -/
def sortedSells (rows : List Row) : List Row := sortByDate (rows.filter isSell)

/-- The initial lot state (source lines 41-43): zero remaining amount and
cost, no current buy date. -/
def initLot : Lot := ⟨0, 0, none, none⟩

/-- Run the matching engine of source lines 34-91 on a ledger. -/
def runEngine (rows : List Row) : EngSt :=
  processSells (sortedSells rows) ⟨(sortedBuys rows).enum, initLot, [], []⟩

/-- All match records emitted for a ledger, in emission order. -/
def vdaMatches (rows : List Row) : List MatchRec := (runEngine rows).recs

/-- All unmatched-sell records emitted for a ledger, in emission order. -/
def vdaUnmatched (rows : List Row) : List UnmatchedSell :=
  (runEngine rows).unms

/-- Source lines 99-102: the grouping key of a match is the pair of its
dates with the time-of-day discarded; a match whose key contains NaT is
dropped by pandas groupby. -/
def aggKey (m : MatchRec) : Option (Int × Int) :=
  match m.acq, m.disp with
  | some a, some d => some (a.day, d.day)
  | _, _ => none

/-- Lexicographic order on grouping keys, as a boolean. -/
def keyLeB (k1 k2 : Int × Int) : Bool :=
  decide (k1.1 < k2.1) || (decide (k1.1 = k2.1) && decide (k1.2 ≤ k2.2))

/-- Lexicographic order on grouping keys, as a relation. -/
def keyLe (k1 k2 : Int × Int) : Prop := keyLeB k1 k2 = true

instance : DecidableRel keyLe := fun a b => by
  unfold keyLe; infer_instance

/-- The distinct grouping keys in ascending order (groupby with
sort=True, source line 102). -/
def aggKeys (ms : List MatchRec) : List (Int × Int) :=
  ((ms.filterMap aggKey).dedup).insertionSort keyLe

/-- The matches of one group, in emission order (groupby preserves the
within-group row order). -/
def groupOf (ms : List MatchRec) (k : Int × Int) : List MatchRec :=
  ms.filter (fun m => aggKey m == some k)

/-- Summed cost of acquisition of a bucket (source lines 106-107). -/
def sumCost (g : List MatchRec) : ℚ := (g.map (·.cost)).sum

/-- Summed consideration received of a bucket. -/
def sumCons (g : List MatchRec) : ℚ := (g.map (·.cons)).sum

/-- Summed net profit/loss of a bucket. -/
def sumPL (g : List MatchRec) : ℚ := (g.map (·.pl)).sum

/-- Python round to integer: round-half-to-even. -/
def roundHalfEven (x : ℚ) : Int :=
  if x - ⌊x⌋ < 1 / 2 then ⌊x⌋
  else if (1 : ℚ) / 2 < x - ⌊x⌋ then ⌊x⌋ + 1
  else if ⌊x⌋ % 2 = 0 then ⌊x⌋ else ⌊x⌋ + 1

/-- Python round(x, 2). -/
def round2 (x : ℚ) : ℚ := (roundHalfEven (100 * x) : ℚ) / 100

/-- One aggregated report row (source lines 111-117 and 121-127), dates
reduced to day numbers. -/
structure ReportRow where
  acq : Int
  disp : Int
  cost : ℚ
  cons : ℚ
  pl : ℚ
deriving DecidableEq

/-- The strictly-negative bucket of a group (source line 107). -/
def lossBucket (ms : List MatchRec) (k : Int × Int) : List MatchRec :=
  (groupOf ms k).filter (fun m => decide (m.pl < 0))

/-- The strictly-positive bucket of a group (source line 106). -/
def profitBucket (ms : List MatchRec) (k : Int × Int) : List MatchRec :=
  (groupOf ms k).filter (fun m => decide (0 < m.pl))

/-- Source lines 110-127: a bucket emits one row, with sums rounded to two
decimals at emission, unless its pre-rounding profit/loss sum is zero. -/
def bucketRows (k : Int × Int) (g : List MatchRec) : List ReportRow :=
  if sumPL g ≠ 0 then
    [⟨k.1, k.2, round2 (sumCost g), round2 (sumCons g), round2 (sumPL g)⟩]
  else []

/-- Source lines 102-127: for each group key in ascending order, emit the
loss row (if any) then the profit row (if any). -/
def aggregateRows (ms : List MatchRec) : List ReportRow :=
  (aggKeys ms).flatMap fun k =>
    bucketRows k (lossBucket ms k) ++ bucketRows k (profitBucket ms k)

/-- Report-row order by the date pair. -/
def rowLe (r1 r2 : ReportRow) : Prop := keyLeB (r1.acq, r1.disp) (r2.acq, r2.disp) = true

instance : DecidableRel rowLe := fun a b => by
  unfold rowLe; infer_instance

/-- The final sort of source line 130. -/
def finalSort (rs : List ReportRow) : List ReportRow := rs.insertionSort rowLe

/-- The whole of compute_vda_fifo (source lines 21-131).  When no match
was emitted the empty report is returned early (line 95).  Otherwise the
matches are aggregated; if every group bucket was suppressed the grouped
row list is empty, pd.DataFrame of it has no columns, and the sort_values
call of line 130 raises KeyError - modelled by Except.error. -/
def compute_vda_fifo (rows : List Row) :
    Except Unit (List ReportRow × List UnmatchedSell) :=
  let st := runEngine rows
  if st.recs.isEmpty then .ok ([], st.unms)
  else
    let fr := aggregateRows st.recs
    if fr.isEmpty then .error ()
    else .ok (finalSort fr, st.unms)

/-- Total quantity drawn from the sorted buy at position i, summed over
the emitted matches. -/
def drawnQ (ms : List MatchRec) (i : Nat) : ℚ :=
  ((ms.filter (fun m => m.lotIdx == some i)).map (·.qty)).sum

/-! ### Evaluation helpers for concrete ledgers -/

@[simp] theorem isBuy_buy (d : Option Timestamp) (a t p : ℚ) :
    isBuy ⟨d, "buy", a, t, p⟩ = true := by
  show (strClean "buy" == "buy".data) = true
  decide

@[simp] theorem isSell_buy (d : Option Timestamp) (a t p : ℚ) :
    isSell ⟨d, "buy", a, t, p⟩ = false := by
  show (strClean "buy" == "sell".data) = false
  decide

@[simp] theorem isBuy_sell (d : Option Timestamp) (a t p : ℚ) :
    isBuy ⟨d, "sell", a, t, p⟩ = false := by
  show (strClean "sell" == "buy".data) = false
  decide

@[simp] theorem isSell_sell (d : Option Timestamp) (a t p : ℚ) :
    isSell ⟨d, "sell", a, t, p⟩ = true := by
  show (strClean "sell" == "sell".data) = true
  decide

/-! ### Concrete ledgers used by the examples and witnesses -/

/-- 2024-01-01. -/
def dA : Timestamp := ⟨20240101, 0⟩

/-- 2024-02-01. -/
def dB : Timestamp := ⟨20240201, 0⟩

/-- 2024-03-01. -/
def dC : Timestamp := ⟨20240301, 0⟩

/-- The worked example of the spec: one buy of 5 for 500, then sells of
3 at 50 and 2 at 80. -/
def exC1 : List Row :=
  [⟨some dA, "buy", 5, 500, 0⟩,
   ⟨some dB, "sell", 3, 0, 50⟩,
   ⟨some dC, "sell", 2, 0, 80⟩]

/-- A break-even ledger: the single match nets exactly zero gain. -/
def exC9 : List Row :=
  [⟨some dA, "buy", 1, 100, 0⟩, ⟨some dB, "sell", 1, 0, 100⟩]

/-- A ledger whose only row is a sell with an unparseable (null) date. -/
def exC5 : List Row := [⟨none, "sell", 5, 0, 100⟩]

/-- A ledger where a null-date sell follows a dated buy and a dated sell
that leaves part of the lot unconsumed. -/
def exC5b : List Row :=
  [⟨some dA, "buy", 5, 500, 0⟩,
   ⟨some dB, "sell", 2, 0, 50⟩,
   ⟨none, "sell", 1, 0, 10⟩]

/-! ### C1 -/

/-- C1: on the ledger with one buy (2024-01-01, qty 5, total 500) and two
sells (2024-02-01 qty 3 at 50; 2024-03-01 qty 2 at 80), the engine emits
exactly the two matches with costBasis 300 / proceeds 150 / gainLoss -150
and costBasis 200 / proceeds 160 / gainLoss -40, the lot is fully drained
(remaining quantity zero), and the aggregated report is exactly the two
loss rows, one per (acquisition date, disposal date) pair. -/
theorem c1_example_ledger :
    vdaMatches exC1 =
      [⟨some dA, some dB, 300, 150, -150, 3, some 0⟩,
       ⟨some dA, some dC, 200, 160, -40, 2, some 0⟩]
    ∧ (runEngine exC1).lot.rba = 0
    ∧ compute_vda_fifo exC1 =
      .ok ([⟨20240101, 20240201, 300, 150, -150⟩,
            ⟨20240101, 20240301, 200, 160, -40⟩], []) := by
  refine ⟨?_, ?_, ?_⟩
  · norm_num [vdaMatches, runEngine, exC1, sortedBuys, sortedSells, sortByDate,
      rowDateLe, optLeB, tsLeB, dA, dB, dC, List.enum, List.enumFrom,
      processSells, sellStep, processSell, adoptAndGo, stepMatch, dleB, initLot]
  · norm_num [runEngine, exC1, sortedBuys, sortedSells, sortByDate,
      rowDateLe, optLeB, tsLeB, dA, dB, dC, List.enum, List.enumFrom,
      processSells, sellStep, processSell, adoptAndGo, stepMatch, dleB, initLot]
  · norm_num [compute_vda_fifo, runEngine, exC1, sortedBuys, sortedSells,
      sortByDate, rowDateLe, optLeB, tsLeB, dA, dB, dC, List.enum,
      List.enumFrom, processSells, sellStep, processSell, adoptAndGo,
      stepMatch, dleB, initLot, aggregateRows, aggKeys, aggKey, keyLe, keyLeB,
      groupOf, lossBucket, profitBucket, bucketRows, sumCost, sumCons, sumPL,
      round2, roundHalfEven, finalSort, rowLe, List.dedup, List.flatMap]
    norm_num [Int.fract, -Int.self_sub_floor]

/-! ### C9 -/

/-- C9: the matching engine itself terminates on every input (the model is
a total function), but an exception does escape compute_vda_fifo: on a
ledger whose only match nets exactly zero gain, the match list is
non-empty while every aggregation bucket is suppressed, so final_rows is
empty, pd.DataFrame of it has no columns, and the sort_values call at
source line 130 raises KeyError (modelled as Except.error). -/
theorem c9_zero_gain_crash :
    vdaMatches exC9 ≠ [] ∧ compute_vda_fifo exC9 = .error () := by
  constructor
  · norm_num [vdaMatches, runEngine, exC9, sortedBuys, sortedSells, sortByDate,
      rowDateLe, optLeB, tsLeB, dA, dB, List.enum, List.enumFrom,
      processSells, sellStep, processSell, adoptAndGo, stepMatch, dleB, initLot]
  · norm_num [compute_vda_fifo, runEngine, exC9, sortedBuys, sortedSells,
      sortByDate, rowDateLe, optLeB, tsLeB, dA, dB, List.enum, List.enumFrom,
      processSells, sellStep, processSell, adoptAndGo, stepMatch, dleB, initLot,
      aggregateRows, aggKeys, aggKey, keyLe, keyLeB, groupOf, lossBucket,
      profitBucket, bucketRows, sumCost, sumCons, sumPL, List.dedup,
      List.flatMap]

/-! ### C10 -/

/-- C10: a sell whose quantity is zero is silently dropped: the while-loop
guard fails at once, so the sell emits no match and no unmatched record
and leaves the cursor and lot state untouched; the engine state after it
equals the state before it, for any state (in particular with no buys). -/
theorem c10_zero_quantity_sell (s : Row) (rest : List Row) (st : EngSt)
    (h : s.amount = 0) :
    processSells (s :: rest) st = processSells rest st := by
  have hstep : sellStep st s = st := by
    cases st with
    | mk b l r u => simp [sellStep, processSell, h]
  rw [processSells, hstep]

/-- C10 witness: a concrete zero-quantity sell against the empty state is
dropped. -/
theorem c10_zero_quantity_sell_witness :
    processSells [⟨some dB, "sell", 0, 0, 7⟩] ⟨[], initLot, [], []⟩ =
      processSells [] ⟨[], initLot, [], []⟩ :=
  c10_zero_quantity_sell ⟨some dB, "sell", 0, 0, 7⟩ [] ⟨[], initLot, [], []⟩ rfl

/-! ### C6 -/

/-- With no buys in the state and an exhausted lot, every positive sell
turns into exactly one unmatched record carrying its quantity, date and
price. -/
theorem processSells_no_buys (sells : List Row) (st : EngSt)
    (hb : st.buys = []) (hl : st.lot.rba = 0)
    (hpos : ∀ s ∈ sells, 0 < s.amount) :
    processSells sells st =
      ⟨[], st.lot, st.recs,
        st.unms ++ sells.map (fun s => ⟨s.date, s.amount, s.price⟩)⟩ := by
  induction sells generalizing st with
  | nil =>
    cases st with
    | mk b l r u => simp_all [processSells]
  | cons s rest ih =>
    have hs : 0 < s.amount := hpos s (List.mem_cons_self s rest)
    have hstep : sellStep st s =
        ⟨[], st.lot, st.recs, st.unms ++ [⟨s.date, s.amount, s.price⟩]⟩ := by
      cases st with
      | mk b l r u =>
        simp only at hb hl
        subst hb
        simp [sellStep, processSell, hs, hl, adoptAndGo]
    have h2 := ih ⟨[], st.lot, st.recs, st.unms ++ [⟨s.date, s.amount, s.price⟩]⟩
      rfl hl (fun x hx => hpos x (List.mem_cons_of_mem s hx))
    rw [processSells, hstep, h2]
    simp

/-- C6: if the buy stream is empty, the engine emits no match, and each
sell of positive quantity yields exactly one unmatched record with its
full quantity, date and unit price, in order. -/
theorem c6_empty_buys (rows : List Row) (hb : sortedBuys rows = [])
    (hpos : ∀ s ∈ sortedSells rows, 0 < s.amount) :
    vdaMatches rows = []
    ∧ vdaUnmatched rows =
        (sortedSells rows).map (fun s => ⟨s.date, s.amount, s.price⟩) := by
  unfold vdaMatches vdaUnmatched runEngine
  rw [hb]
  rw [processSells_no_buys (sortedSells rows) ⟨([] : List Row).enum, initLot, [], []⟩
    rfl rfl hpos]
  simp

/-- 2024-06-01. -/
def dD : Timestamp := ⟨20240601, 0⟩

/-- The spec's empty-buys example: one sell of 5 at price 100 on
2024-06-01 and no buys. -/
def exC6 : List Row := [⟨some dD, "sell", 5, 0, 100⟩]

/-- C6 witness: the spec's example, one sell of 5 at price 100 against an
empty buy stream, yields no match and one unmatched record with the full
quantity. -/
theorem c6_empty_buys_witness :
    vdaMatches exC6 = [] ∧ vdaUnmatched exC6 = [⟨some dD, 5, 100⟩] := by
  have h := c6_empty_buys exC6
    (by norm_num [sortedBuys, sortByDate, exC6])
    (by
      intro s hs
      simp [sortedSells, sortByDate, exC6, List.insertionSort] at hs
      subst hs
      norm_num)
  have hsells : sortedSells exC6 = [⟨some dD, "sell", 5, 0, 100⟩] := by
    simp [sortedSells, sortByDate, exC6, List.insertionSort]
  rw [hsells] at h
  simpa using h

/-! ### C5: counterexample -/

/-- C5 counterexample: the claim says a row with an unparseable (null)
date is never processed as a sell and contributes to no UnmatchedSell and
no MatchRecord.  On the one-row ledger whose only entry is a null-date
sell the engine emits an UnmatchedSell for it; and on the ledger exC5b the
null-date sell (sorted after the dated sells) consumes the leftover lot
and emits a MatchRecord whose disposal date is null.  So null-date sells
are processed. -/
theorem c5_null_sell_is_processed :
    vdaUnmatched exC5 = [⟨none, 5, 100⟩]
    ∧ (vdaMatches exC5b).map (fun m => m.disp) = [some dB, none] := by
  constructor
  · norm_num [vdaUnmatched, runEngine, exC5, sortedBuys, sortedSells,
      sortByDate, rowDateLe, optLeB, tsLeB, List.enum, List.enumFrom,
      processSells, sellStep, processSell, adoptAndGo, stepMatch, dleB, initLot]
  · norm_num [vdaMatches, runEngine, exC5b, sortedBuys, sortedSells,
      sortByDate, rowDateLe, optLeB, tsLeB, dA, dB, List.enum, List.enumFrom,
      processSells, sellStep, processSell, adoptAndGo, stepMatch, dleB, initLot]

/-! ### Order facts for the sorting relations -/

theorem tsLeB_total (a b : Timestamp) : tsLeB a b = true ∨ tsLeB b a = true := by
  simp only [tsLeB, Bool.or_eq_true, Bool.and_eq_true, decide_eq_true_eq]
  omega

theorem tsLeB_trans {a b c : Timestamp} (h1 : tsLeB a b = true)
    (h2 : tsLeB b c = true) : tsLeB a c = true := by
  simp only [tsLeB, Bool.or_eq_true, Bool.and_eq_true, decide_eq_true_eq] at h1 h2 ⊢
  omega

theorem optLeB_total : ∀ a b : Option Timestamp,
    optLeB a b = true ∨ optLeB b a = true
  | some a, some b => tsLeB_total a b
  | some _, none => Or.inl rfl
  | none, none => Or.inl rfl
  | none, some _ => Or.inr rfl

theorem optLeB_trans : ∀ {a b c : Option Timestamp},
    optLeB a b = true → optLeB b c = true → optLeB a c = true
  | some _, some _, some _, h1, h2 => tsLeB_trans h1 h2
  | some _, some _, none, _, _ => rfl
  | some _, none, none, _, _ => rfl
  | none, none, none, _, _ => rfl
  | some _, none, some _, _, h2 => absurd h2 (by simp [optLeB])
  | none, some _, some _, h1, _ => absurd h1 (by simp [optLeB])
  | none, some _, none, h1, _ => absurd h1 (by simp [optLeB])
  | none, none, some _, _, h2 => absurd h2 (by simp [optLeB])

instance : IsTotal Row rowDateLe :=
  ⟨fun a b => by unfold rowDateLe; exact optLeB_total a.date b.date⟩

instance : IsTrans Row rowDateLe :=
  ⟨fun _ _ _ h1 h2 => by
    unfold rowDateLe at h1 h2 ⊢; exact optLeB_trans h1 h2⟩

theorem keyLeB_refl (k : Int × Int) : keyLeB k k = true := by
  simp [keyLeB]

theorem keyLeB_total (k1 k2 : Int × Int) :
    keyLeB k1 k2 = true ∨ keyLeB k2 k1 = true := by
  simp only [keyLeB, Bool.or_eq_true, Bool.and_eq_true, decide_eq_true_eq]
  omega

theorem keyLeB_trans {k1 k2 k3 : Int × Int} (h1 : keyLeB k1 k2 = true)
    (h2 : keyLeB k2 k3 = true) : keyLeB k1 k3 = true := by
  simp only [keyLeB, Bool.or_eq_true, Bool.and_eq_true, decide_eq_true_eq] at h1 h2 ⊢
  omega

instance : IsTotal (Int × Int) keyLe :=
  ⟨fun a b => by unfold keyLe; exact keyLeB_total a b⟩

instance : IsTrans (Int × Int) keyLe :=
  ⟨fun _ _ _ h1 h2 => by unfold keyLe at h1 h2 ⊢; exact keyLeB_trans h1 h2⟩

/-- The sell stream is sorted by date (NaT last). -/
theorem sortedSells_pairwise (rows : List Row) :
    (sortedSells rows).Pairwise rowDateLe :=
  List.sorted_insertionSort rowDateLe (rows.filter isSell)

/-! ### Aggregation facts (C4 infrastructure) -/

theorem aggKeys_nodup (ms : List MatchRec) : (aggKeys ms).Nodup :=
  ((List.perm_insertionSort keyLe _).nodup_iff).mpr (List.nodup_dedup _)

theorem aggKeys_sorted (ms : List MatchRec) : (aggKeys ms).Pairwise keyLe :=
  List.sorted_insertionSort keyLe _

theorem mem_aggKeys {ms : List MatchRec} {k : Int × Int} :
    k ∈ aggKeys ms ↔ ∃ m ∈ ms, aggKey m = some k := by
  rw [aggKeys, (List.perm_insertionSort keyLe _).mem_iff, List.mem_dedup,
    List.mem_filterMap]

theorem bucketRows_key {k : Int × Int} {g : List MatchRec} :
    ∀ r ∈ bucketRows k g, (r.acq, r.disp) = k := by
  intro r hr
  unfold bucketRows at hr
  split at hr
  · simp only [List.mem_singleton] at hr
    subst hr
    rfl
  · simp at hr

theorem bucketRows_length (k : Int × Int) (g : List MatchRec) :
    (bucketRows k g).length ≤ 1 := by
  unfold bucketRows
  split <;> simp

theorem bucketRows_eq_nil_iff (k : Int × Int) (g : List MatchRec) :
    bucketRows k g = [] ↔ sumPL g = 0 := by
  unfold bucketRows
  split <;> simp_all

theorem groupOf_eq_nil_of_not_mem {ms : List MatchRec} {k : Int × Int}
    (h : ¬ k ∈ aggKeys ms) : groupOf ms k = [] := by
  rw [groupOf, List.filter_eq_nil_iff]
  intro m hm hk
  rw [beq_iff_eq] at hk
  exact h (mem_aggKeys.mpr ⟨m, hm, hk⟩)

theorem filter_flatMap_key (f : (Int × Int) → List ReportRow)
    (hf : ∀ k r, r ∈ f k → (r.acq, r.disp) = k) :
    ∀ (keys : List (Int × Int)), keys.Nodup → ∀ k : Int × Int,
    (keys.flatMap f).filter (fun r => (r.acq, r.disp) == k)
      = if k ∈ keys then f k else [] := by
  intro keys
  induction keys with
  | nil => simp
  | cons a rest ih =>
    intro hnd k
    have ha : ¬ a ∈ rest := (List.nodup_cons.mp hnd).1
    rw [List.flatMap_cons, List.filter_append, ih (List.nodup_cons.mp hnd).2 k]
    by_cases hk : a = k
    · subst hk
      rw [List.filter_eq_self.mpr (fun r hr => by
        rw [beq_iff_eq]; exact hf a r hr)]
      simp [ha]
    · rw [List.filter_eq_nil_iff.mpr (fun r hr hkr => by
        rw [beq_iff_eq] at hkr
        exact hk ((hf a r hr).symm.trans hkr))]
      simp [hk, Ne.symm hk]

theorem pairwise_flatMap_keys (f : (Int × Int) → List ReportRow)
    (hf : ∀ k r, r ∈ f k → (r.acq, r.disp) = k) :
    ∀ (keys : List (Int × Int)), keys.Pairwise keyLe →
    (keys.flatMap f).Pairwise rowLe := by
  intro keys
  induction keys with
  | nil => simp
  | cons a rest ih =>
    intro hp
    rw [List.flatMap_cons, List.pairwise_append]
    refine ⟨?_, ih hp.of_cons, ?_⟩
    · refine List.pairwise_of_forall_mem_list ?_
      intro r1 h1 r2 h2
      unfold rowLe
      rw [hf a r1 h1, hf a r2 h2]
      exact keyLeB_refl a
    · intro r1 h1 r2 h2
      rw [List.mem_flatMap] at h2
      obtain ⟨k2, hk2, hr2⟩ := h2
      unfold rowLe
      rw [hf a r1 h1, hf k2 r2 hr2]
      exact (List.pairwise_cons.mp hp).1 k2 hk2

/-! ### C4 -/

/-- C4: for every list of match records, the aggregation (i) needs no
reordering by the final sort - the grouped output is already ascending in
the (acquisition day, disposal day) key, with the loss row emitted before
the profit row inside each group, as the explicit group expansion below
shows; (ii) is sorted by the date pair; (iii) the rows of any key k are
exactly the loss row of the strictly-negative bucket of k followed by the
profit row of the strictly-positive bucket of k, each carrying the bucket
sums rounded to two decimals at emission; (iv) has at most two rows per
key; (v)-(vi) a bucket row is suppressed exactly when the bucket's
pre-rounding profit/loss sum is zero; (vii) every emitted row's key is the
date pair (time-of-day discarded) of some match record. -/
theorem c4_aggregation (ms : List MatchRec) :
    finalSort (aggregateRows ms) = aggregateRows ms
    ∧ (aggregateRows ms).Pairwise rowLe
    ∧ (∀ k : Int × Int,
        (aggregateRows ms).filter (fun r => (r.acq, r.disp) == k)
          = bucketRows k (lossBucket ms k) ++ bucketRows k (profitBucket ms k))
    ∧ (∀ k : Int × Int,
        ((aggregateRows ms).filter (fun r => (r.acq, r.disp) == k)).length ≤ 2)
    ∧ (∀ k : Int × Int,
        (bucketRows k (lossBucket ms k) = [] ↔ sumPL (lossBucket ms k) = 0))
    ∧ (∀ k : Int × Int,
        (bucketRows k (profitBucket ms k) = [] ↔ sumPL (profitBucket ms k) = 0))
    ∧ (∀ r ∈ aggregateRows ms, ∃ m ∈ ms, aggKey m = some (r.acq, r.disp)) := by
  have hfa : ∀ (k : Int × Int) (r : ReportRow),
      r ∈ bucketRows k (lossBucket ms k) ++ bucketRows k (profitBucket ms k) →
      (r.acq, r.disp) = k := by
    intro k r hr
    rcases List.mem_append.mp hr with h | h
    · exact bucketRows_key r h
    · exact bucketRows_key r h
  have hsorted : (aggregateRows ms).Pairwise rowLe :=
    pairwise_flatMap_keys _ hfa _ (aggKeys_sorted ms)
  have hfilter : ∀ k : Int × Int,
      (aggregateRows ms).filter (fun r => (r.acq, r.disp) == k)
        = bucketRows k (lossBucket ms k) ++ bucketRows k (profitBucket ms k) := by
    intro k
    rw [aggregateRows, filter_flatMap_key _ hfa _ (aggKeys_nodup ms) k]
    split
    · rfl
    · rename_i hk
      have hg : groupOf ms k = [] := groupOf_eq_nil_of_not_mem hk
      have hl : lossBucket ms k = [] := by rw [lossBucket, hg]; rfl
      have hp : profitBucket ms k = [] := by rw [profitBucket, hg]; rfl
      rw [hl, hp, (bucketRows_eq_nil_iff k []).mpr (by simp [sumPL])]
      simp
  refine ⟨?_, hsorted, hfilter, ?_, ?_, ?_, ?_⟩
  · exact List.Sorted.insertionSort_eq hsorted
  · intro k
    rw [hfilter k, List.length_append]
    have h1 := bucketRows_length k (lossBucket ms k)
    have h2 := bucketRows_length k (profitBucket ms k)
    omega
  · intro k
    exact bucketRows_eq_nil_iff k _
  · intro k
    exact bucketRows_eq_nil_iff k _
  · intro r hr
    rw [aggregateRows, List.mem_flatMap] at hr
    obtain ⟨k, hk, hrk⟩ := hr
    rw [hfa k r hrk]
    exact mem_aggKeys.mp hk

/-! ### Date invariants of the matching loop (C2, C5 infrastructure) -/

theorem dleB_eq_true {x y : Option Timestamp} (h : dleB x y = true) :
    ∃ a t, x = some a ∧ y = some t ∧ tsLeB a t = true := by
  cases x <;> cases y <;> simp_all [dleB]

/-- A match record with chronologically consistent dates: its acquisition
date is present, and is on or before its disposal date whenever the
latter is present. -/
def GoodRec (m : MatchRec) : Prop :=
  m.acq ≠ none ∧ ∀ a t, m.acq = some a → m.disp = some t → tsLeB a t = true

/-- A non-exhausted lot carries an acquisition date. -/
def LotAcq (lot : Lot) : Prop := lot.rba ≠ 0 → lot.acq ≠ none

/-- The lot's acquisition date is on or before the date d (vacuous when
either is absent). -/
def LotLe (lot : Lot) (d : Option Timestamp) : Prop :=
  ∀ a, lot.acq = some a → ∀ t, d = some t → tsLeB a t = true

theorem LotLe_mono {lot : Lot} {d d' : Option Timestamp}
    (h : LotLe lot d) (hdd : optLeB d d' = true) : LotLe lot d' := by
  intro a ha t' ht'
  subst ht'
  cases d with
  | none => simp [optLeB] at hdd
  | some t => exact tsLeB_trans (h a ha t rfl) hdd

/-- Every match the cursor-advance loop emits is dated by the sell, and
draws on a lot adopted under the eligibility comparison, so its
acquisition date is present and at or before the sell date; the final lot
is either the entry lot or such an adopted lot. -/
theorem adoptAndGo_dates (sd : Option Timestamp) (sp : ℚ) :
    ∀ (buys : List (Nat × Row)) (q : ℚ) (lot : Lot),
    (∀ m ∈ (adoptAndGo sd sp buys q lot).recs,
        m.disp = sd ∧ ∃ t a, sd = some t ∧ m.acq = some a ∧ tsLeB a t = true)
    ∧ ((adoptAndGo sd sp buys q lot).lot = lot ∨
        ∃ t a, sd = some t ∧ (adoptAndGo sd sp buys q lot).lot.acq = some a ∧
          tsLeB a t = true) := by
  intro buys
  induction buys with
  | nil =>
    intro q lot
    constructor
    · intro m hm
      simp [adoptAndGo] at hm
    · left
      rfl
  | cons p rest ih =>
    intro q lot
    obtain ⟨i, b⟩ := p
    by_cases hd : dleB b.date sd
    · obtain ⟨a, t, hbd, hsd, hle⟩ := dleB_eq_true hd
      by_cases hpos : 0 < b.amount
      · by_cases hq2 : 0 < (stepMatch sd sp q ⟨b.amount, b.total, b.date, some i⟩).2.1
        · have heq : adoptAndGo sd sp ((i, b) :: rest) q lot =
            { adoptAndGo sd sp rest
                (stepMatch sd sp q ⟨b.amount, b.total, b.date, some i⟩).2.1
                (stepMatch sd sp q ⟨b.amount, b.total, b.date, some i⟩).2.2 with
              recs := (stepMatch sd sp q ⟨b.amount, b.total, b.date, some i⟩).1 ::
                (adoptAndGo sd sp rest
                  (stepMatch sd sp q ⟨b.amount, b.total, b.date, some i⟩).2.1
                  (stepMatch sd sp q ⟨b.amount, b.total, b.date, some i⟩).2.2).recs } := by
            simp only [adoptAndGo, if_pos hd, if_pos hpos, if_pos hq2]
          obtain ⟨ihrec, ihlot⟩ := ih (stepMatch sd sp q ⟨b.amount, b.total, b.date, some i⟩).2.1
            (stepMatch sd sp q ⟨b.amount, b.total, b.date, some i⟩).2.2
          constructor
          · intro m hm
            rw [heq] at hm
            rcases List.mem_cons.mp hm with hm1 | hm2
            · subst hm1
              exact ⟨rfl, t, a, hsd, hbd, hle⟩
            · exact ihrec m hm2
          · rw [heq]
            rcases ihlot with h | h
            · right
              rw [h]
              exact ⟨t, a, hsd, hbd, hle⟩
            · right
              exact h
        · have heq : adoptAndGo sd sp ((i, b) :: rest) q lot =
              ⟨[(stepMatch sd sp q ⟨b.amount, b.total, b.date, some i⟩).1], [],
               (stepMatch sd sp q ⟨b.amount, b.total, b.date, some i⟩).2.2, rest⟩ := by
            simp only [adoptAndGo, if_pos hd, if_pos hpos, if_neg hq2]
          rw [heq]
          constructor
          · intro m hm
            simp only [List.mem_singleton] at hm
            subst hm
            exact ⟨rfl, t, a, hsd, hbd, hle⟩
          · right
            exact ⟨t, a, hsd, hbd, hle⟩
      · have heq : adoptAndGo sd sp ((i, b) :: rest) q lot =
            adoptAndGo sd sp rest q ⟨b.amount, b.total, b.date, some i⟩ := by
          simp only [adoptAndGo, if_pos hd, if_neg hpos]
        rw [heq]
        obtain ⟨ihrec, ihlot⟩ := ih q ⟨b.amount, b.total, b.date, some i⟩
        refine ⟨ihrec, ?_⟩
        rcases ihlot with h | h
        · right
          rw [h]
          exact ⟨t, a, hsd, hbd, hle⟩
        · right
          exact h
    · have heq : adoptAndGo sd sp ((i, b) :: rest) q lot =
          ⟨[], [⟨sd, q, sp⟩], lot, (i, b) :: rest⟩ := by
        simp only [adoptAndGo, if_neg hd]
      rw [heq]
      constructor
      · intro m hm
        simp at hm
      · left
        rfl

/-- One sell preserves the date invariants: all matches it emits are
chronologically consistent, and the carried lot keeps an acquisition date
at or before the sell date. -/
theorem processSell_dates (sd : Option Timestamp) (sp : ℚ) (q : ℚ)
    (lot : Lot) (buys : List (Nat × Row))
    (hacq : LotAcq lot) (hle : LotLe lot sd) :
    (∀ m ∈ (processSell sd sp q lot buys).recs, GoodRec m)
    ∧ LotAcq (processSell sd sp q lot buys).lot
    ∧ LotLe (processSell sd sp q lot buys).lot sd := by
  have hAG : ∀ (q' : ℚ) (lot' : Lot), LotAcq lot' → LotLe lot' sd →
      (∀ m ∈ (adoptAndGo sd sp buys q' lot').recs, GoodRec m)
      ∧ LotAcq (adoptAndGo sd sp buys q' lot').lot
      ∧ LotLe (adoptAndGo sd sp buys q' lot').lot sd := by
    intro q' lot' hacq' hle'
    obtain ⟨hrec, hlot⟩ := adoptAndGo_dates sd sp buys q' lot'
    refine ⟨?_, ?_, ?_⟩
    · intro m hm
      obtain ⟨hdisp, t, a, hsd, hacqm, hlem⟩ := hrec m hm
      refine ⟨by rw [hacqm]; exact Option.some_ne_none a, ?_⟩
      intro a' t' ha' ht'
      rw [hacqm] at ha'
      injection ha' with ha'
      subst ha'
      rw [hdisp, hsd] at ht'
      injection ht' with ht'
      subst ht'
      exact hlem
    · rcases hlot with h | h
      · rw [h]
        exact hacq'
      · obtain ⟨t, a, hsd, hacql, _⟩ := h
        intro _
        rw [hacql]
        exact Option.some_ne_none a
    · rcases hlot with h | h
      · rw [h]
        exact hle'
      · obtain ⟨t, a, hsd, hacql, hlel⟩ := h
        intro a' ha' t' ht'
        rw [hacql] at ha'
        injection ha' with ha'
        subst ha'
        rw [hsd] at ht'
        injection ht' with ht'
        subst ht'
        exact hlel
  by_cases hq : 0 < q
  · by_cases hrba : lot.rba = 0
    · have heq : processSell sd sp q lot buys = adoptAndGo sd sp buys q lot := by
        simp only [processSell, if_pos hq, if_pos hrba]
      rw [heq]
      exact hAG q lot hacq hle
    · have hgood1 : GoodRec (stepMatch sd sp q lot).1 := by
        constructor
        · exact hacq hrba
        · intro a t ha ht
          exact hle a ha t ht
      have hacqmid : LotAcq (stepMatch sd sp q lot).2.2 := fun _ => hacq hrba
      have hlemid : LotLe (stepMatch sd sp q lot).2.2 sd := fun a ha t ht =>
        hle a ha t ht
      by_cases hq2 : 0 < (stepMatch sd sp q lot).2.1
      · have heq : processSell sd sp q lot buys =
            { adoptAndGo sd sp buys (stepMatch sd sp q lot).2.1
                (stepMatch sd sp q lot).2.2 with
              recs := (stepMatch sd sp q lot).1 ::
                (adoptAndGo sd sp buys (stepMatch sd sp q lot).2.1
                  (stepMatch sd sp q lot).2.2).recs } := by
          simp only [processSell, if_pos hq, if_neg hrba, if_pos hq2]
        rw [heq]
        obtain ⟨hg, ha2, hl2⟩ := hAG (stepMatch sd sp q lot).2.1
          (stepMatch sd sp q lot).2.2 hacqmid hlemid
        refine ⟨?_, ha2, hl2⟩
        intro m hm
        rcases List.mem_cons.mp hm with h | h
        · subst h
          exact hgood1
        · exact hg m h
      · have heq : processSell sd sp q lot buys =
            ⟨[(stepMatch sd sp q lot).1], [], (stepMatch sd sp q lot).2.2, buys⟩ := by
          simp only [processSell, if_pos hq, if_neg hrba, if_neg hq2]
        rw [heq]
        refine ⟨?_, hacqmid, hlemid⟩
        intro m hm
        simp only [List.mem_singleton] at hm
        subst hm
        exact hgood1
  · have heq : processSell sd sp q lot buys = ⟨[], [], lot, buys⟩ := by
      simp only [processSell, if_neg hq]
    rw [heq]
    exact ⟨fun m hm => by simp at hm, hacq, hle⟩

/-- The date invariants across the whole sell loop: starting from a state
whose lot respects every upcoming sell date and whose emitted matches are
chronologically consistent, they remain so. -/
theorem processSells_dates : ∀ (sells : List Row) (st : EngSt),
    sells.Pairwise rowDateLe →
    (∀ s ∈ sells, LotLe st.lot s.date) →
    LotAcq st.lot →
    (∀ m ∈ st.recs, GoodRec m) →
    (∀ m ∈ (processSells sells st).recs, GoodRec m)
    ∧ LotAcq (processSells sells st).lot := by
  intro sells
  induction sells with
  | nil =>
    intro st _ _ hacq hrecs
    exact ⟨hrecs, hacq⟩
  | cons s rest ih =>
    intro st hp hles hacq hrecs
    obtain ⟨hg, ha', hl'⟩ := processSell_dates s.date s.price s.amount st.lot
      st.buys hacq (hles s (List.mem_cons_self s rest))
    have hstep : (∀ m ∈ (sellStep st s).recs, GoodRec m)
        ∧ LotAcq (sellStep st s).lot ∧ LotLe (sellStep st s).lot s.date := by
      refine ⟨?_, ha', hl'⟩
      intro m hm
      rcases List.mem_append.mp hm with h | h
      · exact hrecs m h
      · exact hg m h
    rw [processSells]
    refine ih (sellStep st s) hp.of_cons ?_ hstep.2.1 hstep.1
    intro s' hs'
    exact LotLe_mono hstep.2.2 ((List.pairwise_cons.mp hp).1 s' hs')

/-! ### C2 -/

/-- C2: no emitted match has its acquisition date strictly after its
disposal date: whenever both dates are present the acquisition date is at
or before the disposal date.  A lot is adopted only under the eligibility
comparison with the current sell date, and carried lots only meet later
(hence not earlier) sell dates. -/
theorem c2_chronological_eligibility (rows : List Row) :
    ∀ m ∈ vdaMatches rows, ∀ a t,
      m.acq = some a → m.disp = some t → tsLeB a t = true := by
  have h := processSells_dates (sortedSells rows)
    ⟨(sortedBuys rows).enum, initLot, [], []⟩
    (sortedSells_pairwise rows)
    (fun s _ => by intro a ha; simp [initLot] at ha)
    (fun hr => absurd rfl hr)
    (fun m hm => by simp at hm)
  intro m hm a t ha ht
  exact (h.1 m hm).2 a t ha ht

/-- The match list of the worked example, evaluated once for use by the
concrete witnesses. -/
theorem vdaMatches_exC1_eq :
    vdaMatches exC1 =
      [⟨some dA, some dB, 300, 150, -150, 3, some 0⟩,
       ⟨some dA, some dC, 200, 160, -40, 2, some 0⟩] := by
  norm_num [vdaMatches, runEngine, exC1, sortedBuys, sortedSells, sortByDate,
    rowDateLe, optLeB, tsLeB, dA, dB, dC, List.enum, List.enumFrom,
    processSells, sellStep, processSell, adoptAndGo, stepMatch, dleB, initLot]

/-- C2 witness: in the worked example the first match has acquisition
2024-01-01 and disposal 2024-02-01, in order. -/
theorem c2_chronological_eligibility_witness : tsLeB dA dB = true :=
  c2_chronological_eligibility exC1 ⟨some dA, some dB, 300, 150, -150, 3, some 0⟩
    (by
      rw [vdaMatches_exC1_eq]
      exact List.mem_cons_self _ _)
    dA dB rfl rfl

/-! ### C5: amended claim -/

/-- C5 amended: rows with a null date are never adopted as buy lots - the
eligibility comparison is false on a null date, so every emitted match has
a present acquisition date, and a non-exhausted carried lot always has
one - but null-date sells are still processed (see the counterexample).
-/
theorem c5_null_dates_amended (rows : List Row) :
    (∀ m ∈ vdaMatches rows, m.acq ≠ none)
    ∧ ((runEngine rows).lot.rba ≠ 0 → (runEngine rows).lot.acq ≠ none) := by
  have h := processSells_dates (sortedSells rows)
    ⟨(sortedBuys rows).enum, initLot, [], []⟩
    (sortedSells_pairwise rows)
    (fun s _ => by intro a ha; simp [initLot] at ha)
    (fun hr => absurd rfl hr)
    (fun m hm => by simp at hm)
  exact ⟨fun m hm => (h.1 m hm).1, h.2⟩

/-! ### Quantity accounting (C3, C8 infrastructure) -/

theorem drawnQ_nil (i : Nat) : drawnQ [] i = 0 := rfl

theorem drawnQ_cons (m : MatchRec) (ms : List MatchRec) (i : Nat) :
    drawnQ (m :: ms) i =
      (if m.lotIdx = some i then m.qty else 0) + drawnQ ms i := by
  unfold drawnQ
  by_cases h : m.lotIdx = some i
  · simp [List.filter_cons, h]
  · simp [List.filter_cons, h]

theorem drawnQ_append (ms1 ms2 : List MatchRec) (i : Nat) :
    drawnQ (ms1 ++ ms2) i = drawnQ ms1 i + drawnQ ms2 i := by
  unfold drawnQ
  rw [List.filter_append, List.map_append, List.sum_append]

theorem drawnQ_eq_zero {ms : List MatchRec} {i : Nat}
    (h : ∀ m ∈ ms, m.lotIdx ≠ some i) : drawnQ ms i = 0 := by
  unfold drawnQ
  rw [List.filter_eq_nil_iff.mpr (fun m hm => by simp [h m hm])]
  rfl

theorem min_eq_right_of_pos_sub {q a : ℚ} (h : 0 < q - min q a) : min q a = a := by
  rcases le_total q a with hle | hle
  · rw [min_eq_left hle] at h
    simp at h
  · exact min_eq_right hle

/-- In a pair list with no repeated first components, a head first
component does not recur in the tail. -/
theorem head_fst_not_mem {i : Nat} {b : Row} {rest : List (Nat × Row)}
    (hnd : (((i, b) :: rest).map Prod.fst).Nodup) :
    ∀ p ∈ rest, p.1 ≠ i := by
  intro p hp
  rw [List.map_cons, List.nodup_cons] at hnd
  intro hpi
  have hmem : p.1 ∈ rest.map Prod.fst := List.mem_map_of_mem Prod.fst hp
  rw [hpi] at hmem
  exact hnd.1 hmem

/-- First components of a split pair list with no repeats differ across
the split. -/
theorem split_fst_ne {pre post : List (Nat × Row)}
    (hnd : (((pre ++ post)).map Prod.fst).Nodup) :
    ∀ p ∈ pre, ∀ p' ∈ post, p.1 ≠ p'.1 := by
  intro p hp p' hp'
  rw [List.map_append, List.nodup_append] at hnd
  intro hee
  have hmem : p.1 ∈ post.map Prod.fst := by
    rw [hee]
    exact List.mem_map_of_mem Prod.fst hp'
  exact hnd.2.2 (List.mem_map_of_mem Prod.fst hp) hmem

/-- Bundled accounting facts about the result r of one run of the
cursor-advance / match loop, relative to the buys it started from and its
entry lot: the consumed buys form a prefix, every match draws on a
positive consumed buy adopted under the eligibility test, the final lot
is the entry lot or a consumed buy, no quantity is drawn on untouched
indices, and for every starting buy the drawn quantity plus the remaining
quantity (when it is the final lot) accounts exactly for its amount. -/
def AGSpec (sd : Option Timestamp) (sp : ℚ) (buys : List (Nat × Row))
    (lot : Lot) (r : SellOut) : Prop :=
  ∃ pre, buys = pre ++ r.buys
    ∧ (∀ m ∈ r.recs, m.disp = sd ∧ ∃ p ∈ pre, m.lotIdx = some p.1 ∧
         m.acq = p.2.date ∧ dleB p.2.date sd = true ∧ 0 < p.2.amount)
    ∧ (r.lot = lot ∨ ∃ p ∈ pre, r.lot.idx = some p.1 ∧ r.lot.acq = p.2.date
         ∧ dleB p.2.date sd = true)
    ∧ (∀ i : Nat, (∀ p ∈ buys, p.1 ≠ i) → drawnQ r.recs i = 0)
    ∧ (∀ p ∈ buys,
         (r.lot.idx = some p.1 →
            drawnQ r.recs p.1 + r.lot.rba = p.2.amount)
         ∧ (r.lot.idx ≠ some p.1 →
            drawnQ r.recs p.1 = 0 ∨ drawnQ r.recs p.1 = p.2.amount))
    ∧ (∀ u ∈ r.unms, u.disp = sd ∧ u.price = sp)

/-- The cursor-advance / match loop satisfies its accounting
specification, provided the starting buys carry distinct indices none of
which is the entry lot's. -/
theorem adoptAndGo_spec (sd : Option Timestamp) (sp : ℚ) :
    ∀ (buys : List (Nat × Row)) (q : ℚ) (lot : Lot),
    (buys.map Prod.fst).Nodup →
    (∀ p ∈ buys, lot.idx ≠ some p.1) →
    AGSpec sd sp buys lot (adoptAndGo sd sp buys q lot) := by
  intro buys
  induction buys with
  | nil =>
    intro q lot _ _
    refine ⟨[], rfl, ?_, Or.inl rfl, ?_, ?_, ?_⟩
    · intro m hm
      simp [adoptAndGo] at hm
    · intro i _
      exact drawnQ_nil i
    · intro p hp
      simp at hp
    · intro u hu
      simp only [adoptAndGo, List.mem_singleton] at hu
      subst hu
      exact ⟨rfl, rfl⟩
  | cons hd0 rest ih =>
    intro q lot hnd hfresh
    obtain ⟨i, b⟩ := hd0
    have hndr : (rest.map Prod.fst).Nodup := by
      rw [List.map_cons, List.nodup_cons] at hnd
      exact hnd.2
    have hir : ∀ p ∈ rest, p.1 ≠ i := head_fst_not_mem hnd
    by_cases hd : dleB b.date sd
    · by_cases hpos : 0 < b.amount
      · by_cases hq2 : 0 < (stepMatch sd sp q ⟨b.amount, b.total, b.date, some i⟩).2.1
        · -- adopt, match, and continue into the remaining buys
          have hmin : min q b.amount = b.amount := min_eq_right_of_pos_sub hq2
          have hrba0 : (stepMatch sd sp q ⟨b.amount, b.total, b.date, some i⟩).2.2.rba = 0 := by
            show b.amount - min q b.amount = 0
            rw [hmin]
            ring
          have hfresh' : ∀ p ∈ rest, (stepMatch sd sp q ⟨b.amount, b.total, b.date, some i⟩).2.2.idx ≠ some p.1 := by
            intro p hp
            show some i ≠ some p.1
            simp only [ne_eq, Option.some_inj]
            exact fun h => hir p hp h.symm
          obtain ⟨pre', hsplit', hrec', hlot', hzero', hacct', hunm'⟩ :=
            ih (stepMatch sd sp q ⟨b.amount, b.total, b.date, some i⟩).2.1 (stepMatch sd sp q ⟨b.amount, b.total, b.date, some i⟩).2.2 hndr hfresh'
          have hrecsE : (adoptAndGo sd sp ((i, b) :: rest) q lot).recs =
              (stepMatch sd sp q ⟨b.amount, b.total, b.date, some i⟩).1 :: (adoptAndGo sd sp rest (stepMatch sd sp q ⟨b.amount, b.total, b.date, some i⟩).2.1 (stepMatch sd sp q ⟨b.amount, b.total, b.date, some i⟩).2.2).recs := by
            simp only [adoptAndGo, if_pos hd, if_pos hpos, if_pos hq2]
          have hunmsE : (adoptAndGo sd sp ((i, b) :: rest) q lot).unms =
              (adoptAndGo sd sp rest (stepMatch sd sp q ⟨b.amount, b.total, b.date, some i⟩).2.1 (stepMatch sd sp q ⟨b.amount, b.total, b.date, some i⟩).2.2).unms := by
            simp only [adoptAndGo, if_pos hd, if_pos hpos, if_pos hq2]
          have hlotE : (adoptAndGo sd sp ((i, b) :: rest) q lot).lot =
              (adoptAndGo sd sp rest (stepMatch sd sp q ⟨b.amount, b.total, b.date, some i⟩).2.1 (stepMatch sd sp q ⟨b.amount, b.total, b.date, some i⟩).2.2).lot := by
            simp only [adoptAndGo, if_pos hd, if_pos hpos, if_pos hq2]
          have hbuysE : (adoptAndGo sd sp ((i, b) :: rest) q lot).buys =
              (adoptAndGo sd sp rest (stepMatch sd sp q ⟨b.amount, b.total, b.date, some i⟩).2.1 (stepMatch sd sp q ⟨b.amount, b.total, b.date, some i⟩).2.2).buys := by
            simp only [adoptAndGo, if_pos hd, if_pos hpos, if_pos hq2]
          refine ⟨(i, b) :: pre', ?_, ?_, ?_, ?_, ?_, ?_⟩
          · rw [hbuysE, List.cons_append]
            exact congrArg (List.cons (i, b)) hsplit'
          · intro m hm
            rw [hrecsE] at hm
            rcases List.mem_cons.mp hm with h | h
            · subst h
              exact ⟨rfl, (i, b), List.mem_cons_self _ _, rfl, rfl, hd, hpos⟩
            · obtain ⟨hdisp, p, hp, hrest⟩ := hrec' m h
              exact ⟨hdisp, p, List.mem_cons_of_mem _ hp, hrest⟩
          · rw [hlotE]
            rcases hlot' with h | ⟨p, hp, h1, h2, h3⟩
            · right
              refine ⟨(i, b), List.mem_cons_self _ _, ?_, ?_, hd⟩
              · rw [h]
                exact rfl
              · rw [h]
                exact rfl
            · right
              exact ⟨p, List.mem_cons_of_mem _ hp, h1, h2, h3⟩
          · intro j hj
            have hij : i ≠ j := hj (i, b) (List.mem_cons_self _ _)
            rw [hrecsE, drawnQ_cons, if_neg (by
              show ¬ (some i = some j)
              simp only [Option.some_inj]
              exact hij)]
            rw [hzero' j (fun p hp => hj p (List.mem_cons_of_mem _ hp))]
            ring
          · intro p hp
            rcases List.mem_cons.mp hp with h | hp'
            · subst h
              constructor
              · intro hidx
                rw [hlotE] at hidx ⊢
                rcases hlot' with h | ⟨p', hp'', h1, _, _⟩
                · rw [h, hrecsE, drawnQ_cons,
                    if_pos (show (stepMatch sd sp q ⟨b.amount, b.total, b.date, some i⟩).1.lotIdx = some i from rfl),
                    hzero' i hir, hrba0]
                  show min q b.amount + 0 + 0 = b.amount
                  rw [hmin]
                  ring
                · have hpr : p' ∈ rest := by
                    rw [hsplit']
                    exact List.mem_append_left _ hp''
                  rw [h1] at hidx
                  rw [Option.some_inj] at hidx
                  exact absurd hidx (hir p' hpr)
              · intro _
                right
                rw [hrecsE, drawnQ_cons,
                  if_pos (show (stepMatch sd sp q ⟨b.amount, b.total, b.date, some i⟩).1.lotIdx = some i from rfl),
                  hzero' i hir]
                show min q b.amount + 0 = b.amount
                rw [hmin]
                ring
            · have hpne : p.1 ≠ i := hir p hp'
              have hdq : drawnQ (adoptAndGo sd sp ((i, b) :: rest) q lot).recs p.1 =
                  drawnQ (adoptAndGo sd sp rest (stepMatch sd sp q ⟨b.amount, b.total, b.date, some i⟩).2.1 (stepMatch sd sp q ⟨b.amount, b.total, b.date, some i⟩).2.2).recs p.1 := by
                rw [hrecsE, drawnQ_cons, if_neg (by
                  show ¬ (some i = some p.1)
                  simp only [Option.some_inj]
                  exact fun h => hpne h.symm)]
                ring
              constructor
              · intro hidx
                rw [hlotE] at hidx ⊢
                rw [hdq]
                exact (hacct' p hp').1 hidx
              · intro hn
                rw [hlotE] at hn
                rw [hdq]
                exact (hacct' p hp').2 hn
          · intro u hu
            rw [hunmsE] at hu
            exact hunm' u hu
        · -- adopt, match, and stop: the sell is satisfied
          have heq : adoptAndGo sd sp ((i, b) :: rest) q lot =
              ⟨[(stepMatch sd sp q ⟨b.amount, b.total, b.date, some i⟩).1], [], (stepMatch sd sp q ⟨b.amount, b.total, b.date, some i⟩).2.2, rest⟩ := by
            simp only [adoptAndGo, if_pos hd, if_pos hpos, if_neg hq2]
          rw [heq]
          refine ⟨[(i, b)], rfl, ?_, ?_, ?_, ?_, ?_⟩
          · intro m hm
            simp only [List.mem_singleton] at hm
            subst hm
            exact ⟨rfl, (i, b), List.mem_singleton.mpr rfl, rfl, rfl, hd, hpos⟩
          · right
            exact ⟨(i, b), List.mem_singleton.mpr rfl, rfl, rfl, hd⟩
          · intro j hj
            have hij : i ≠ j := hj (i, b) (List.mem_cons_self _ _)
            rw [drawnQ_cons, if_neg (by
              show ¬ (some i = some j)
              simp only [Option.some_inj]
              exact hij), drawnQ_nil]
            ring
          · intro p hp
            rcases List.mem_cons.mp hp with h | hp'
            · subst h
              constructor
              · intro _
                rw [drawnQ_cons,
                  if_pos (show (stepMatch sd sp q ⟨b.amount, b.total, b.date, some i⟩).1.lotIdx = some i from rfl),
                  drawnQ_nil]
                show min q b.amount + 0 + (b.amount - min q b.amount) = b.amount
                ring
              · intro hn
                exact absurd rfl hn
            · have hpne : p.1 ≠ i := hir p hp'
              have hdq : drawnQ [(stepMatch sd sp q ⟨b.amount, b.total, b.date, some i⟩).1] p.1 = 0 := by
                rw [drawnQ_cons, if_neg (by
                  show ¬ (some i = some p.1)
                  simp only [Option.some_inj]
                  exact fun h => hpne h.symm), drawnQ_nil]
                ring
              constructor
              · intro hidx
                have hip : i = p.1 := by
                  have h' : (stepMatch sd sp q ⟨b.amount, b.total, b.date, some i⟩).2.2.idx = some i := rfl
                  rw [h'] at hidx
                  exact Option.some_inj.mp hidx
                exact absurd hip.symm hpne
              · intro _
                left
                exact hdq
          · intro u hu
            simp at hu
      · -- scanned buy has no positive quantity: adopt it and keep scanning
        have hfresh' : ∀ p ∈ rest,
            (⟨b.amount, b.total, b.date, some i⟩ : Lot).idx ≠ some p.1 := by
          intro p hp
          show some i ≠ some p.1
          simp only [ne_eq, Option.some_inj]
          exact fun h => hir p hp h.symm
        obtain ⟨pre', hsplit', hrec', hlot', hzero', hacct', hunm'⟩ :=
          ih q ⟨b.amount, b.total, b.date, some i⟩ hndr hfresh'
        have heq : adoptAndGo sd sp ((i, b) :: rest) q lot =
            adoptAndGo sd sp rest q ⟨b.amount, b.total, b.date, some i⟩ := by
          simp only [adoptAndGo, if_pos hd, if_neg hpos]
        rw [heq]
        refine ⟨(i, b) :: pre', ?_, ?_, ?_, ?_, ?_, ?_⟩
        · rw [List.cons_append]
          exact congrArg (List.cons (i, b)) hsplit'
        · intro m hm
          obtain ⟨hdisp, p, hp, hrest⟩ := hrec' m hm
          exact ⟨hdisp, p, List.mem_cons_of_mem _ hp, hrest⟩
        · rcases hlot' with h | ⟨p, hp, h1, h2, h3⟩
          · right
            refine ⟨(i, b), List.mem_cons_self _ _, ?_, ?_, hd⟩
            · rw [h]
            · rw [h]
          · right
            exact ⟨p, List.mem_cons_of_mem _ hp, h1, h2, h3⟩
        · intro j hj
          exact hzero' j (fun p hp => hj p (List.mem_cons_of_mem _ hp))
        · intro p hp
          rcases List.mem_cons.mp hp with h | hp'
          · subst h
            constructor
            · intro hidx
              rcases hlot' with h | ⟨p', hp'', h1, _, _⟩
              · rw [h, hzero' i hir]
                show (0 : ℚ) + b.amount = b.amount
                ring
              · have hpr : p' ∈ rest := by
                  rw [hsplit']
                  exact List.mem_append_left _ hp''
                rw [h1] at hidx
                rw [Option.some_inj] at hidx
                exact absurd hidx (hir p' hpr)
            · intro _
              left
              exact hzero' i hir
          · exact hacct' p hp'
        · exact hunm'
    · -- head buy not eligible by date: the for-else fires
      have heq : adoptAndGo sd sp ((i, b) :: rest) q lot =
          ⟨[], [⟨sd, q, sp⟩], lot, (i, b) :: rest⟩ := by
        simp only [adoptAndGo, if_neg hd]
      rw [heq]
      refine ⟨[], rfl, ?_, Or.inl rfl, ?_, ?_, ?_⟩
      · intro m hm
        simp at hm
      · intro j _
        exact drawnQ_nil j
      · intro p hp
        constructor
        · intro hidx
          exact absurd hidx (hfresh p hp)
        · intro _
          left
          exact drawnQ_nil p.1
      · intro u hu
        simp only [List.mem_singleton] at hu
        subst hu
        exact ⟨rfl, rfl⟩

/-- The engine-level accounting invariant, relative to the sorted buy
list B: the remaining buys are genuine entries of B with nothing yet
drawn and distinct indices, the current lot's drawn-plus-remaining
quantity accounts exactly for its buy's amount, an abandoned buy was
either untouched or fully drawn, and a zero-amount buy is never drawn on
and is exhausted whenever it is the current lot. -/
structure StOK (B : List Row) (st : EngSt) : Prop where
  mem : ∀ p ∈ st.buys,
    B[p.1]? = some p.2 ∧ drawnQ st.recs p.1 = 0 ∧ st.lot.idx ≠ some p.1
  nodup : (st.buys.map Prod.fst).Nodup
  cur : ∀ i b, B[i]? = some b → st.lot.idx = some i →
    drawnQ st.recs i + st.lot.rba = b.amount
  past : ∀ i b, B[i]? = some b → st.lot.idx ≠ some i →
    drawnQ st.recs i = 0 ∨ drawnQ st.recs i = b.amount
  zero : ∀ i b, B[i]? = some b → b.amount = 0 →
    (∀ m ∈ st.recs, m.lotIdx ≠ some i) ∧ (st.lot.idx = some i → st.lot.rba = 0)

/-- One match against the non-exhausted carried lot preserves the
accounting invariant. -/
theorem stOK_match (B : List Row) (st : EngSt) (sd : Option Timestamp)
    (sp q : ℚ) (h : StOK B st) (hrba : st.lot.rba ≠ 0) :
    StOK B ⟨st.buys, (stepMatch sd sp q st.lot).2.2,
      st.recs ++ [(stepMatch sd sp q st.lot).1], st.unms⟩ := by
  constructor
  · intro p hp
    obtain ⟨hB, hdr, hni⟩ := h.mem p hp
    refine ⟨hB, ?_, hni⟩
    rw [drawnQ_append, hdr, drawnQ_cons, drawnQ_nil,
      if_neg (show ¬ ((stepMatch sd sp q st.lot).1.lotIdx = some p.1) from hni)]
    ring
  · exact h.nodup
  · intro i b hB hidx
    have hidx' : st.lot.idx = some i := hidx
    have hcur := h.cur i b hB hidx'
    rw [drawnQ_append, drawnQ_cons, drawnQ_nil,
      if_pos (show (stepMatch sd sp q st.lot).1.lotIdx = some i from hidx')]
    show drawnQ st.recs i + (min q st.lot.rba + 0) +
      (st.lot.rba - min q st.lot.rba) = b.amount
    linarith [hcur]
  · intro i b hB hnidx
    have hnidx' : st.lot.idx ≠ some i := hnidx
    rw [drawnQ_append, drawnQ_cons, drawnQ_nil,
      if_neg (show ¬ ((stepMatch sd sp q st.lot).1.lotIdx = some i) from hnidx')]
    rcases h.past i b hB hnidx' with h0 | ha
    · left
      rw [h0]
      ring
    · right
      rw [ha]
      ring
  · intro i b hB hb0
    obtain ⟨hm, hl⟩ := h.zero i b hB hb0
    constructor
    · intro m hmem
      rcases List.mem_append.mp hmem with h1 | h2
      · exact hm m h1
      · simp only [List.mem_singleton] at h2
        subst h2
        show st.lot.idx ≠ some i
        intro heqi
        exact hrba (hl heqi)
    · intro hidx
      have hidx' : st.lot.idx = some i := hidx
      exact absurd (hl hidx') hrba

/-- The cursor-advance / match loop preserves the accounting invariant,
entered with an exhausted carried lot. -/
theorem stOK_adopt (B : List Row) (st : EngSt) (sd : Option Timestamp)
    (sp q : ℚ) (h : StOK B st) (hrba : st.lot.rba = 0) :
    StOK B ⟨(adoptAndGo sd sp st.buys q st.lot).buys, (adoptAndGo sd sp st.buys q st.lot).lot, st.recs ++ (adoptAndGo sd sp st.buys q st.lot).recs,
      st.unms ++ (adoptAndGo sd sp st.buys q st.lot).unms⟩ := by
  have hfresh : ∀ p ∈ st.buys, st.lot.idx ≠ some p.1 :=
    fun p hp => (h.mem p hp).2.2
  obtain ⟨pre, hsplit, hrec, hlot, hzero, hacct, hunm⟩ :=
    adoptAndGo_spec sd sp st.buys q st.lot h.nodup hfresh
  have hndall : ((pre ++ (adoptAndGo sd sp st.buys q st.lot).buys).map Prod.fst).Nodup := by
    rw [← hsplit]
    exact h.nodup
  have hpremem : ∀ p ∈ pre, p ∈ st.buys := by
    intro p hp
    rw [hsplit]
    exact List.mem_append_left _ hp
  have hsufmem : ∀ p ∈ (adoptAndGo sd sp st.buys q st.lot).buys, p ∈ st.buys := by
    intro p hp
    rw [hsplit]
    exact List.mem_append_right _ hp
  have hcross : ∀ p ∈ pre, ∀ p' ∈ (adoptAndGo sd sp st.buys q st.lot).buys, p.1 ≠ p'.1 :=
    split_fst_ne hndall
  have hinj : ∀ p ∈ st.buys, ∀ p' ∈ st.buys, p.1 = p'.1 → p = p' :=
    fun p hp p' hp' he => List.inj_on_of_nodup_map h.nodup hp hp' he
  constructor
  · intro p hp
    obtain ⟨hB, hdr, hni⟩ := h.mem p (hsufmem p hp)
    refine ⟨hB, ?_, ?_⟩
    · rw [drawnQ_append, hdr, drawnQ_eq_zero (fun m hm => ?_)]
      · ring
      · obtain ⟨_, p', hp', hidm, _, _, _⟩ := hrec m hm
        rw [hidm]
        simp only [ne_eq, Option.some_inj]
        exact fun he => hcross p' hp' p hp he
    · rcases hlot with hL | ⟨p', hp', h1, _, _⟩
      · rw [hL]
        exact hni
      · rw [h1]
        simp only [ne_eq, Option.some_inj]
        exact fun he => hcross p' hp' p hp he
  · rw [List.map_append, List.nodup_append] at hndall
    exact hndall.2.1
  · intro i b hB hidx
    rw [drawnQ_append]
    rcases hlot with hL | ⟨p', hp', h1, _, _⟩
    · rw [hL] at hidx ⊢
      have hz : drawnQ (adoptAndGo sd sp st.buys q st.lot).recs i = 0 := by
        refine drawnQ_eq_zero (fun m hm => ?_)
        obtain ⟨_, p', hp', hidm, _, _, _⟩ := hrec m hm
        rw [hidm]
        simp only [ne_eq, Option.some_inj]
        intro he
        exact hfresh p' (hpremem p' hp') (by rw [hidx, he])
      rw [hz]
      have := h.cur i b hB hidx
      linarith
    · have hpi : p'.1 = i := by
        rw [h1] at hidx
        exact Option.some_inj.mp hidx
      obtain ⟨hB', hdr', _⟩ := h.mem p' (hpremem p' hp')
      have hbb : p'.2 = b := by
        rw [hpi] at hB'
        rw [hB'] at hB
        exact Option.some_inj.mp hB
      have hsum := (hacct p' (hpremem p' hp')).1 h1
      rw [← hpi, hdr', hbb] at *
      linarith [hsum]
  · intro i b hB hnidx
    rw [drawnQ_append]
    by_cases hcuri : st.lot.idx = some i
    · have hdi : drawnQ st.recs i = b.amount := by
        have := h.cur i b hB hcuri
        rw [hrba] at this
        linarith
      have hz : drawnQ (adoptAndGo sd sp st.buys q st.lot).recs i = 0 := by
        refine drawnQ_eq_zero (fun m hm => ?_)
        obtain ⟨_, p', hp', hidm, _, _, _⟩ := hrec m hm
        rw [hidm]
        simp only [ne_eq, Option.some_inj]
        intro he
        exact hfresh p' (hpremem p' hp') (by rw [hcuri, he])
      right
      rw [hdi, hz]
      ring
    · by_cases hpre : ∀ p' ∈ pre, p'.1 ≠ i
      · have hz : drawnQ (adoptAndGo sd sp st.buys q st.lot).recs i = 0 := by
          refine drawnQ_eq_zero (fun m hm => ?_)
          obtain ⟨_, p', hp', hidm, _, _, _⟩ := hrec m hm
          rw [hidm]
          simp only [ne_eq, Option.some_inj]
          exact hpre p' hp'
        rw [hz]
        rcases h.past i b hB hcuri with h0 | ha
        · left
          rw [h0]
          ring
        · right
          rw [ha]
          ring
      · push_neg at hpre
        obtain ⟨p', hp', hpi⟩ := hpre
        obtain ⟨hB', hdr', _⟩ := h.mem p' (hpremem p' hp')
        have hbb : p'.2 = b := by
          rw [hpi] at hB'
          rw [hB'] at hB
          exact Option.some_inj.mp hB
        have hzero' : drawnQ st.recs i = 0 := by
          rw [← hpi]
          exact hdr'
        have hnag : (adoptAndGo sd sp st.buys q st.lot).lot.idx ≠ some p'.1 := by
          rw [hpi]
          exact hnidx
        rcases (hacct p' (hpremem p' hp')).2 hnag with h0 | ha
        · left
          rw [hzero', ← hpi, h0]
          ring
        · right
          rw [hzero', ← hpi, ha, hbb]
          ring
  · intro i b hB hb0
    have hnew : ∀ m ∈ (adoptAndGo sd sp st.buys q st.lot).recs, m.lotIdx ≠ some i := by
      intro m hm
      obtain ⟨_, p', hp', hidm, _, _, hposm⟩ := hrec m hm
      rw [hidm]
      simp only [ne_eq, Option.some_inj]
      intro he
      obtain ⟨hB', _, _⟩ := h.mem p' (hpremem p' hp')
      rw [he] at hB'
      rw [hB'] at hB
      have : p'.2 = b := Option.some_inj.mp hB
      rw [this, hb0] at hposm
      exact lt_irrefl 0 hposm
    obtain ⟨hmold, hlold⟩ := h.zero i b hB hb0
    constructor
    · intro m hmem
      rcases List.mem_append.mp hmem with h1 | h2
      · exact hmold m h1
      · exact hnew m h2
    · intro hidx
      rcases hlot with hL | ⟨p', hp', h1, _, _⟩
      · rw [hL]
        exact hrba
      · have hpi : p'.1 = i := by
          rw [h1] at hidx
          exact Option.some_inj.mp hidx
        obtain ⟨hB', _, _⟩ := h.mem p' (hpremem p' hp')
        have hbb : p'.2 = b := by
          rw [hpi] at hB'
          rw [hB'] at hB
          exact Option.some_inj.mp hB
        have hsum := (hacct p' (hpremem p' hp')).1 h1
        have hz : drawnQ (adoptAndGo sd sp st.buys q st.lot).recs p'.1 = 0 := by
          rw [hpi]
          exact drawnQ_eq_zero hnew
        rw [hz, hbb, hb0] at hsum
        linarith

/-- Processing one sell preserves the accounting invariant. -/
theorem stOK_sellStep (B : List Row) (st : EngSt) (s : Row)
    (h : StOK B st) : StOK B (sellStep st s) := by
  by_cases hq : 0 < s.amount
  · by_cases hrba : st.lot.rba = 0
    · have heq : sellStep st s =
          ⟨(adoptAndGo s.date s.price st.buys s.amount st.lot).buys, (adoptAndGo s.date s.price st.buys s.amount st.lot).lot, st.recs ++ (adoptAndGo s.date s.price st.buys s.amount st.lot).recs,
           st.unms ++ (adoptAndGo s.date s.price st.buys s.amount st.lot).unms⟩ := by
        simp only [sellStep, processSell, if_pos hq, if_pos hrba]
      rw [heq]
      exact stOK_adopt B st s.date s.price s.amount h hrba
    · by_cases hq2 : 0 < (stepMatch s.date s.price s.amount st.lot).2.1
      · have hmid := stOK_match B st s.date s.price s.amount h hrba
        have hmidrba :
            (⟨st.buys, (stepMatch s.date s.price s.amount st.lot).2.2,
              st.recs ++ [(stepMatch s.date s.price s.amount st.lot).1],
              st.unms⟩ : EngSt).lot.rba = 0 := by
          show st.lot.rba - min s.amount st.lot.rba = 0
          rw [min_eq_right_of_pos_sub hq2]
          ring
        have hfin := stOK_adopt B
          ⟨st.buys, (stepMatch s.date s.price s.amount st.lot).2.2,
           st.recs ++ [(stepMatch s.date s.price s.amount st.lot).1], st.unms⟩
          s.date s.price (stepMatch s.date s.price s.amount st.lot).2.1
          hmid hmidrba
        have heq : sellStep st s =
            ⟨(adoptAndGo s.date s.price st.buys (stepMatch s.date s.price s.amount st.lot).2.1 (stepMatch s.date s.price s.amount st.lot).2.2).buys, (adoptAndGo s.date s.price st.buys (stepMatch s.date s.price s.amount st.lot).2.1 (stepMatch s.date s.price s.amount st.lot).2.2).lot,
             (st.recs ++ [(stepMatch s.date s.price s.amount st.lot).1]) ++ (adoptAndGo s.date s.price st.buys (stepMatch s.date s.price s.amount st.lot).2.1 (stepMatch s.date s.price s.amount st.lot).2.2).recs,
             st.unms ++ (adoptAndGo s.date s.price st.buys (stepMatch s.date s.price s.amount st.lot).2.1 (stepMatch s.date s.price s.amount st.lot).2.2).unms⟩ := by
          simp only [sellStep, processSell, if_pos hq, if_neg hrba, if_pos hq2,
            List.append_assoc, List.singleton_append]
        rw [heq]
        exact hfin
      · have hmid := stOK_match B st s.date s.price s.amount h hrba
        have heq : sellStep st s =
            ⟨st.buys, (stepMatch s.date s.price s.amount st.lot).2.2,
             st.recs ++ [(stepMatch s.date s.price s.amount st.lot).1],
             st.unms⟩ := by
          simp only [sellStep, processSell, if_pos hq, if_neg hrba, if_neg hq2,
            List.append_nil]
        rw [heq]
        exact hmid
  · have heq : sellStep st s = st := by
      cases st with
      | mk bb ll rr uu => simp [sellStep, processSell, hq]
    rw [heq]
    exact h

/-- The whole sell loop preserves the accounting invariant. -/
theorem stOK_processSells (B : List Row) :
    ∀ (sells : List Row) (st : EngSt), StOK B st →
    StOK B (processSells sells st) := by
  intro sells
  induction sells with
  | nil =>
    intro st h
    exact h
  | cons s rest ih =>
    intro st h
    rw [processSells]
    exact ih (sellStep st s) (stOK_sellStep B st s h)

/-- The engine run on any ledger satisfies the accounting invariant
relative to its sorted buy list. -/
theorem stOK_runEngine (rows : List Row) :
    StOK (sortedBuys rows) (runEngine rows) := by
  refine stOK_processSells (sortedBuys rows) (sortedSells rows)
    ⟨(sortedBuys rows).enum, initLot, [], []⟩ ?_
  constructor
  · intro p hp
    refine ⟨List.mem_enum_iff_getElem?.mp hp, drawnQ_nil p.1, ?_⟩
    simp [initLot]
  · rw [List.enum_map_fst]
    exact List.nodup_range _
  · intro i b _ hidx
    exact absurd hidx (by simp [initLot])
  · intro i b _ _
    left
    exact drawnQ_nil i
  · intro i b _ _
    refine ⟨fun m hm => by simp at hm, fun hidx => ?_⟩
    exact absurd hidx (by simp [initLot])

/-! ### C3 -/

/-- C3: conservation.  Each match satisfies exact cost conservation
(costBasis plus remaining cost after equals remaining cost before) and
exact quantity conservation.  Accumulated over a run: if the sorted buy
at position i is the engine's final lot, the quantity drawn from it plus
its remaining quantity is exactly its amount (so a fully consumed final
lot was drawn for exactly its quantity); and any other buy was either
never drawn on or drawn for exactly its full amount. -/
theorem c3_conservation (rows : List Row) (i : Nat) (b : Row)
    (hb : (sortedBuys rows)[i]? = some b) :
    (∀ (sd : Option Timestamp) (sp q : ℚ) (lot : Lot),
        (stepMatch sd sp q lot).1.cost + (stepMatch sd sp q lot).2.2.rbc
          = lot.rbc
        ∧ (stepMatch sd sp q lot).1.qty + (stepMatch sd sp q lot).2.2.rba
          = lot.rba)
    ∧ ((runEngine rows).lot.idx = some i →
        drawnQ (vdaMatches rows) i + (runEngine rows).lot.rba = b.amount)
    ∧ ((runEngine rows).lot.idx ≠ some i →
        drawnQ (vdaMatches rows) i = 0 ∨ drawnQ (vdaMatches rows) i = b.amount) := by
  have h := stOK_runEngine rows
  refine ⟨?_, h.cur i b hb, h.past i b hb⟩
  intro sd sp q lot
  constructor
  · show (if lot.rba ≠ 0 then lot.rbc * (min q lot.rba / lot.rba) else 0) +
      (lot.rbc - (if lot.rba ≠ 0 then lot.rbc * (min q lot.rba / lot.rba) else 0))
        = lot.rbc
    ring
  · show min q lot.rba + (lot.rba - min q lot.rba) = lot.rba
    ring

/-- C3 witness: on the worked example the single buy (position 0) is the
final lot, fully drained: drawn quantity plus remaining equals 5. -/
theorem c3_conservation_witness :
    drawnQ (vdaMatches exC1) 0 + (runEngine exC1).lot.rba = 5 :=
  (c3_conservation exC1 0 ⟨some dA, "buy", 5, 500, 0⟩
    (by
      norm_num [sortedBuys, sortByDate, exC1, rowDateLe, optLeB, tsLeB,
        dA, dB, dC])).2.1
    (by
      norm_num [runEngine, exC1, sortedBuys, sortedSells, sortByDate,
        rowDateLe, optLeB, tsLeB, dA, dB, dC, List.enum, List.enumFrom,
        processSells, sellStep, processSell, adoptAndGo, stepMatch, dleB,
        initLot])

/-! ### C8 -/

/-- A ledger with a zero-quantity buy followed by a positive buy on the
same date, and one sell. -/
def exC8 : List Row :=
  [⟨some dA, "buy", 0, 50, 0⟩,
   ⟨some dA, "buy", 5, 500, 0⟩,
   ⟨some dB, "sell", 2, 0, 50⟩]

/-- C8: a buy with zero quantity is never the active lot when a match is
computed: no emitted match draws on it (the cursor-advance loop skips it
while advancing past it, so the cost-fraction division never sees a zero
denominator from it). -/
theorem c8_zero_buy_never_matched (rows : List Row) (i : Nat) (b : Row)
    (hb : (sortedBuys rows)[i]? = some b) (h0 : b.amount = 0) :
    ∀ m ∈ vdaMatches rows, m.lotIdx ≠ some i := by
  have h := stOK_runEngine rows
  exact (h.zero i b hb h0).1

/-- C8 witness: on the ledger with a zero buy at position 0 and a
positive buy at position 1, the emitted match draws on position 1, not on
the zero buy. -/
theorem c8_zero_buy_never_matched_witness :
    (⟨some dA, some dB, 200, 100, -100, 2, some 1⟩ : MatchRec).lotIdx ≠ some 0 :=
  c8_zero_buy_never_matched exC8 0 ⟨some dA, "buy", 0, 50, 0⟩
    (by
      norm_num [sortedBuys, sortByDate, exC8, rowDateLe, optLeB, tsLeB,
        dA, dB])
    rfl
    ⟨some dA, some dB, 200, 100, -100, 2, some 1⟩
    (by
      norm_num [vdaMatches, runEngine, exC8, sortedBuys, sortedSells,
        sortByDate, rowDateLe, optLeB, tsLeB, dA, dB, List.enum,
        List.enumFrom, processSells, sellStep, processSell, adoptAndGo,
        stepMatch, dleB, initLot])
